import Mathlib

/-!
Verification of the falling-mass integrator of `Test3.ipynb`.

The notebook's numerical core is three functions:
`calculate_acceleration`, `update_state` and `falling_mass`.
They are embedded here over exact rationals `ℚ`; the Python `while h > 0`
loop of `falling_mass` is modelled by a fuel-indexed recursion, and
theorems about a completed run carry an explicit hypothesis that the fuel
is large enough for the loop to reach `h ≤ 0`.
A simulation state is a triple `(t, h, v)` of time, height and velocity.
-/

namespace Test3

/-- `numpy.sign`, restricted to rational inputs: `-1`, `0` or `1`
according to the sign of the argument. -/
def sign (v : ℚ) : ℚ :=
  if v < 0 then -1 else if 0 < v then 1 else 0

/-- Embedding of `calculate_acceleration(v, k, mass, gravity)`:
gravitational force plus sign-based quadratic drag, divided by the mass. -/
def calculate_acceleration (v k mass gravity : ℚ) : ℚ :=
  let force_gravity := mass * gravity
  let force_air := -sign v * k * v ^ 2
  let total_force := force_gravity + force_air
  let a := total_force / mass
  a

/-- Embedding of `update_state(t, x, v, a, dt)`: one explicit Euler step,
displacement computed from the pre-update velocity. -/
def update_state (t x v a dt : ℚ) : ℚ × ℚ × ℚ :=
  let distance_moved := v * dt + (1/2) * a * dt ^ 2
  (t + dt, x + distance_moved, v + a * dt)

/-- One iteration of the body of the `while` loop of `falling_mass`:
compute the acceleration from the current velocity, then advance the
state `(t, h, v)` with `update_state` (gravity is fixed to `-9.81`). -/
def stepState (k mass dt : ℚ) (s : ℚ × ℚ × ℚ) : ℚ × ℚ × ℚ :=
  let a := calculate_acceleration s.2.2 k mass (-981/100)
  update_state s.1 s.2.1 s.2.2 a dt

/-- The `while h > 0` loop of `falling_mass`, modelled with fuel: while the
height is positive, record the current `(t, h, v)` into the three output
lists and advance the state.  Returns `(time, height, velocity)`. -/
def fallingLoop (k mass dt : ℚ) : ℕ → ℚ × ℚ × ℚ → List ℚ × List ℚ × List ℚ
  | 0, _ => ([], [], [])
  | fuel + 1, s =>
    if 0 < s.2.1 then
      let rest := fallingLoop k mass dt fuel (stepState k mass dt s)
      (s.1 :: rest.1, s.2.1 :: rest.2.1, s.2.2 :: rest.2.2)
    else ([], [], [])

/-- Embedding of `falling_mass(initial_height, k, mass, dt)`: start at
time `0`, height `initial_height`, velocity `0`, gravity `-9.81`, and run
the recording loop.  `fuel` bounds the number of loop iterations; every
statement about a completed run assumes the fuel is sufficient. -/
def falling_mass (initial_height k mass dt : ℚ) (fuel : ℕ) :
    List ℚ × List ℚ × List ℚ :=
  fallingLoop k mass dt fuel (0, initial_height, 0)

/-- The list of full states `(t, h, v)` recorded by the loop; the three
lists returned by `fallingLoop` are its componentwise projections. -/
def fallingSamples (k mass dt : ℚ) : ℕ → ℚ × ℚ × ℚ → List (ℚ × ℚ × ℚ)
  | 0, _ => []
  | fuel + 1, s =>
    if 0 < s.2.1 then
      s :: fallingSamples k mass dt fuel (stepState k mass dt s)
    else []

/-- The state of the simulation after `n` iterations of the loop body,
starting from time `0`, height `h0`, velocity `0` as `falling_mass` does. -/
def stateN (k mass dt h0 : ℚ) (n : ℕ) : ℚ × ℚ × ℚ :=
  (stepState k mass dt)^[n] (0, h0, 0)

/-- Invariant of the velocity in the stable regime: the object moves
downward no faster than terminal velocity (`k * v ^ 2 ≤ g * mass`). -/
def Inv (k mass v : ℚ) : Prop :=
  v ≤ 0 ∧ k * v ^ 2 ≤ (981/100) * mass

theorem fallingSamples_succ (k mass dt : ℚ) (n : ℕ) (s : ℚ × ℚ × ℚ) :
    fallingSamples k mass dt (n + 1) s
      = if 0 < s.2.1 then
          s :: fallingSamples k mass dt n (stepState k mass dt s)
        else [] := rfl

/-- The three lists built by the loop are the componentwise projections of
the recorded sample states. -/
theorem fallingLoop_eq_samples (k mass dt : ℚ) (fuel : ℕ) :
    ∀ s : ℚ × ℚ × ℚ,
      fallingLoop k mass dt fuel s =
        ((fallingSamples k mass dt fuel s).map Prod.fst,
         (fallingSamples k mass dt fuel s).map (fun x => x.2.1),
         (fallingSamples k mass dt fuel s).map (fun x => x.2.2)) := by
  induction fuel with
  | zero => intro s; rfl
  | succ n ih =>
    intro s
    unfold fallingLoop fallingSamples
    by_cases h : 0 < s.2.1
    · simp only [if_pos h, ih, List.map_cons]
    · simp only [if_neg h, List.map_nil]

theorem samples_length_le (k mass dt : ℚ) (fuel : ℕ) :
    ∀ s : ℚ × ℚ × ℚ, (fallingSamples k mass dt fuel s).length ≤ fuel := by
  induction fuel with
  | zero => intro s; simp [fallingSamples]
  | succ n ih =>
    intro s
    unfold fallingSamples
    by_cases h : 0 < s.2.1
    · simpa [h] using ih (stepState k mass dt s)
    · simp [h]

/-- The `i`-th recorded sample is the `i`-th iterate of the loop body. -/
theorem samples_getElemOpt (k mass dt : ℚ) (fuel : ℕ) :
    ∀ (s : ℚ × ℚ × ℚ) (i : ℕ), i < (fallingSamples k mass dt fuel s).length →
      (fallingSamples k mass dt fuel s)[i]? = some ((stepState k mass dt)^[i] s) := by
  induction fuel with
  | zero => intro s i hi; simp [fallingSamples] at hi
  | succ n ih =>
    intro s i hi
    rw [fallingSamples_succ] at hi ⊢
    by_cases h : 0 < s.2.1
    · rw [if_pos h] at hi ⊢
      cases i with
      | zero => simp
      | succ j =>
        simp only [List.length_cons, Nat.succ_lt_succ_iff] at hi
        simp only [List.getElem?_cons_succ]
        rw [ih (stepState k mass dt s) j hi, Function.iterate_succ_apply]
    · rw [if_neg h] at hi
      simp at hi

theorem samples_getElem (k mass dt : ℚ) (fuel : ℕ) (s : ℚ × ℚ × ℚ) (i : ℕ)
    (hi : i < (fallingSamples k mass dt fuel s).length) :
    (fallingSamples k mass dt fuel s)[i] = (stepState k mass dt)^[i] s := by
  have h := samples_getElemOpt k mass dt fuel s i hi
  rwa [List.getElem?_eq_getElem hi, Option.some_inj] at h

/-- Every recorded sample has strictly positive height. -/
theorem samples_mem_pos (k mass dt : ℚ) (fuel : ℕ) :
    ∀ s : ℚ × ℚ × ℚ, ∀ x ∈ fallingSamples k mass dt fuel s, 0 < x.2.1 := by
  induction fuel with
  | zero => intro s x hx; simp [fallingSamples] at hx
  | succ n ih =>
    intro s x hx
    unfold fallingSamples at hx
    by_cases h : 0 < s.2.1
    · rw [if_pos h] at hx
      rcases List.mem_cons.mp hx with rfl | hx
      · exact h
      · exact ih (stepState k mass dt s) x hx
    · rw [if_neg h] at hx
      simp at hx

theorem samples_iterate_pos (k mass dt : ℚ) (fuel : ℕ) (s : ℚ × ℚ × ℚ)
    (i : ℕ) (hi : i < (fallingSamples k mass dt fuel s).length) :
    0 < ((stepState k mass dt)^[i] s).2.1 := by
  rw [← samples_getElem k mass dt fuel s i hi]
  exact samples_mem_pos k mass dt fuel s _ (List.getElem_mem hi)

/-- If the loop stopped before exhausting the fuel, the state right after
the last recorded sample has height `≤ 0`. -/
theorem samples_exit (k mass dt : ℚ) (fuel : ℕ) :
    ∀ s : ℚ × ℚ × ℚ, (fallingSamples k mass dt fuel s).length < fuel →
      ((stepState k mass dt)^[(fallingSamples k mass dt fuel s).length] s).2.1 ≤ 0 := by
  induction fuel with
  | zero => intro s h; exact absurd h (Nat.not_lt_zero _)
  | succ n ih =>
    intro s h
    by_cases hg : 0 < s.2.1
    · have hrw : fallingSamples k mass dt (n + 1) s
          = s :: fallingSamples k mass dt n (stepState k mass dt s) := by
        rw [fallingSamples_succ, if_pos hg]
      rw [hrw] at h ⊢
      simp only [List.length_cons] at h ⊢
      rw [Function.iterate_succ_apply]
      exact ih (stepState k mass dt s) (Nat.succ_lt_succ_iff.mp h)
    · have hrw : fallingSamples k mass dt (n + 1) s = [] := by
        rw [fallingSamples_succ, if_neg hg]
      rw [hrw]
      simpa using not_lt.mp hg

/-- If some iterate within the fuel reaches height `≤ 0`, the loop stops
before exhausting the fuel. -/
theorem samples_length_lt (k mass dt : ℚ) (fuel : ℕ) (s : ℚ × ℚ × ℚ)
    (n : ℕ) (hn : n < fuel) (hex : ((stepState k mass dt)^[n] s).2.1 ≤ 0) :
    (fallingSamples k mass dt fuel s).length < fuel := by
  have hle : (fallingSamples k mass dt fuel s).length ≤ n := by
    by_contra hlt
    push_neg at hlt
    exact absurd (samples_iterate_pos k mass dt fuel s n hlt) (not_lt.mpr hex)
  exact lt_of_le_of_lt hle hn

theorem samples_cons (k mass dt : ℚ) (fuel : ℕ) (s : ℚ × ℚ × ℚ)
    (h : 0 < s.2.1) (hf : 1 ≤ fuel) :
    fallingSamples k mass dt fuel s
      = s :: fallingSamples k mass dt (fuel - 1) (stepState k mass dt s) := by
  cases fuel with
  | zero => exact absurd hf (by norm_num)
  | succ n => rw [fallingSamples_succ, if_pos h, Nat.add_sub_cancel]

theorem sign_of_neg {v : ℚ} (h : v < 0) : sign v = -1 := by
  simp [sign, h]

theorem sign_of_pos {v : ℚ} (h : 0 < v) : sign v = 1 := by
  simp [sign, h, asymm h]

theorem sign_of_zero : sign 0 = 0 := by
  simp [sign]

theorem stepState_fst (k mass dt : ℚ) (s : ℚ × ℚ × ℚ) :
    (stepState k mass dt s).1 = s.1 + dt := rfl

theorem stepState_h (k mass dt : ℚ) (s : ℚ × ℚ × ℚ) :
    (stepState k mass dt s).2.1
      = s.2.1 + (s.2.2 * dt
          + (1/2) * calculate_acceleration s.2.2 k mass (-981/100) * dt ^ 2) := rfl

theorem stepState_v (k mass dt : ℚ) (s : ℚ × ℚ × ℚ) :
    (stepState k mass dt s).2.2
      = s.2.2 + calculate_acceleration s.2.2 k mass (-981/100) * dt := rfl

/-- For a non-positive velocity the drag force is `k * v ^ 2`, so the
acceleration is `(-g * mass + k * v ^ 2) / mass` with `g = 981/100`. -/
theorem calc_acc_of_nonpos (k mass : ℚ) {v : ℚ} (hv : v ≤ 0) :
    calculate_acceleration v k mass (-981/100)
      = (-(981/100) * mass + k * v ^ 2) / mass := by
  rcases lt_or_eq_of_le hv with h | h
  · unfold calculate_acceleration
    rw [sign_of_neg h]
    ring_nf
  · subst h
    unfold calculate_acceleration
    rw [sign_of_zero]
    ring_nf

theorem calc_acc_k_zero (mass gravity : ℚ) (hm : mass ≠ 0) (v : ℚ) :
    calculate_acceleration v 0 mass gravity = gravity := by
  unfold calculate_acceleration
  field_simp

theorem acc_nonpos (k mass : ℚ) {v : ℚ} (hm : 0 < mass)
    (hInv : Inv k mass v) :
    calculate_acceleration v k mass (-981/100) ≤ 0 := by
  rw [calc_acc_of_nonpos k mass hInv.1]
  apply div_nonpos_of_nonpos_of_nonneg _ (le_of_lt hm)
  have := hInv.2
  linarith

/-- Preservation of the terminal-velocity invariant by one loop body step,
in the stable regime `4 * k * g * dt ^ 2 ≤ mass`. -/
theorem inv_step (k mass dt : ℚ) (hk : 0 ≤ k) (hm : 0 < mass) (hdt : 0 < dt)
    (hS : 4 * k * (981/100) * dt ^ 2 ≤ mass) {v : ℚ} (hInv : Inv k mass v) :
    Inv k mass (v + calculate_acceleration v k mass (-981/100) * dt) := by
  have ha := calc_acc_of_nonpos k mass hInv.1
  have hane : calculate_acceleration v k mass (-981/100) ≤ 0 :=
    acc_nonpos k mass hm hInv
  constructor
  · have : calculate_acceleration v k mass (-981/100) * dt ≤ 0 :=
      mul_nonpos_of_nonpos_of_nonneg hane (le_of_lt hdt)
    have := hInv.1
    linarith
  · have hm0 : mass ≠ 0 := ne_of_gt hm
    have key : mass ^ 2 * ((981/100) * mass
          - k * (v + calculate_acceleration v k mass (-981/100) * dt) ^ 2)
        = ((981/100) * mass - k * v ^ 2)
          * ((mass + k * v * dt) ^ 2 - k * (981/100) * mass * dt ^ 2) := by
      rw [ha]
      field_simp
      ring
    have h1 : (k * v * dt) ^ 2 ≤ k * (981/100) * mass * dt ^ 2 := by
      have hkd : 0 ≤ k * dt ^ 2 := mul_nonneg hk (sq_nonneg dt)
      calc (k * v * dt) ^ 2 = (k * v ^ 2) * (k * dt ^ 2) := by ring
        _ ≤ ((981/100) * mass) * (k * dt ^ 2) :=
            mul_le_mul_of_nonneg_right hInv.2 hkd
        _ = k * (981/100) * mass * dt ^ 2 := by ring
    have h2 : k * (981/100) * mass * dt ^ 2 ≤ mass ^ 2 / 4 := by nlinarith
    have h3 : -(mass / 2) ≤ k * v * dt := by
      nlinarith [sq_nonneg (k * v * dt + mass / 2)]
    have h4 : mass / 2 ≤ mass + k * v * dt := by linarith
    have h5 : (mass / 2) ^ 2 ≤ (mass + k * v * dt) ^ 2 := by nlinarith
    have hfac : 0 ≤ (mass + k * v * dt) ^ 2 - k * (981/100) * mass * dt ^ 2 := by
      nlinarith
    have hA : 0 ≤ (981/100) * mass - k * v ^ 2 := by
      have := hInv.2
      linarith
    nlinarith [mul_nonneg hA hfac, pow_pos hm 2, key]

theorem stateN_zero (k mass dt h0 : ℚ) : stateN k mass dt h0 0 = (0, h0, 0) := rfl

theorem stateN_succ (k mass dt h0 : ℚ) (n : ℕ) :
    stateN k mass dt h0 (n + 1) = stepState k mass dt (stateN k mass dt h0 n) := by
  unfold stateN
  rw [Function.iterate_succ_apply']

theorem stateN_time (k mass dt h0 : ℚ) : ∀ n : ℕ,
    (stateN k mass dt h0 n).1 = (n : ℚ) * dt := by
  intro n
  induction n with
  | zero => simp [stateN_zero]
  | succ m ih =>
    rw [stateN_succ, stepState_fst, ih]
    push_cast
    ring

/-- In the stable regime the velocity invariant holds at every step of the
run of `falling_mass`. -/
theorem stateN_inv (k mass dt h0 : ℚ) (hk : 0 ≤ k) (hm : 0 < mass)
    (hdt : 0 < dt) (hS : 4 * k * (981/100) * dt ^ 2 ≤ mass) : ∀ n : ℕ,
    Inv k mass (stateN k mass dt h0 n).2.2 := by
  intro n
  induction n with
  | zero =>
    refine ⟨le_refl 0, ?_⟩
    have : k * (0:ℚ) ^ 2 = 0 := by ring
    rw [stateN_zero]
    simp only
    nlinarith
  | succ m ih =>
    rw [stateN_succ, stepState_v]
    exact inv_step k mass dt hk hm hdt hS ih

theorem stateN_v_one (k mass dt h0 : ℚ) (hm : 0 < mass) :
    (stateN k mass dt h0 1).2.2 = -(981/100) * dt := by
  have h0eq : stateN k mass dt h0 1 = stepState k mass dt (0, h0, 0) := by
    rw [stateN_succ, stateN_zero]
  rw [h0eq, stepState_v]
  have : calculate_acceleration (0, h0, (0:ℚ)).2.2 k mass (-981/100) = -981/100 := by
    rw [calc_acc_of_nonpos k mass (le_refl 0)]
    field_simp
    ring
  rw [this]
  ring

/-- In the stable regime, from step `1` on the velocity stays below the
velocity reached after the first step. -/
theorem stateN_v_le (k mass dt h0 : ℚ) (hk : 0 ≤ k) (hm : 0 < mass)
    (hdt : 0 < dt) (hS : 4 * k * (981/100) * dt ^ 2 ≤ mass) : ∀ n : ℕ, 1 ≤ n →
    (stateN k mass dt h0 n).2.2 ≤ -(981/100) * dt := by
  intro n
  induction n with
  | zero => intro h; exact absurd h (by norm_num)
  | succ m ih =>
    intro _
    by_cases hm1 : 1 ≤ m
    · have hInv := stateN_inv k mass dt h0 hk hm hdt hS m
      have hstep : (stateN k mass dt h0 (m+1)).2.2
          = (stateN k mass dt h0 m).2.2
            + calculate_acceleration (stateN k mass dt h0 m).2.2 k mass (-981/100) * dt := by
        rw [stateN_succ, stepState_v]
      have hacc : calculate_acceleration (stateN k mass dt h0 m).2.2 k mass (-981/100) ≤ 0 :=
        acc_nonpos k mass hm hInv
      have : calculate_acceleration (stateN k mass dt h0 m).2.2 k mass (-981/100) * dt ≤ 0 :=
        mul_nonpos_of_nonpos_of_nonneg hacc (le_of_lt hdt)
      have := ih hm1
      linarith [hstep.le, hstep.ge]
    · have hm0 : m = 0 := by omega
      subst hm0
      rw [stateN_v_one k mass dt h0 hm]

/-- In the stable regime, from step `1` on each step lowers the height by
at least `g * dt ^ 2`. -/
theorem stateN_h_decr (k mass dt h0 : ℚ) (hk : 0 ≤ k) (hm : 0 < mass)
    (hdt : 0 < dt) (hS : 4 * k * (981/100) * dt ^ 2 ≤ mass) (n : ℕ) (hn : 1 ≤ n) :
    (stateN k mass dt h0 (n + 1)).2.1
      ≤ (stateN k mass dt h0 n).2.1 - (981/100) * dt ^ 2 := by
  have hInv := stateN_inv k mass dt h0 hk hm hdt hS n
  have hacc : calculate_acceleration (stateN k mass dt h0 n).2.2 k mass (-981/100) ≤ 0 :=
    acc_nonpos k mass hm hInv
  have hv := stateN_v_le k mass dt h0 hk hm hdt hS n hn
  have hstep : (stateN k mass dt h0 (n+1)).2.1
      = (stateN k mass dt h0 n).2.1
        + ((stateN k mass dt h0 n).2.2 * dt
          + (1/2) * calculate_acceleration (stateN k mass dt h0 n).2.2 k mass (-981/100) * dt ^ 2) := by
    rw [stateN_succ, stepState_h]
  have hvdt : (stateN k mass dt h0 n).2.2 * dt ≤ -(981/100) * dt * dt :=
    mul_le_mul_of_nonneg_right hv (le_of_lt hdt)
  nlinarith [sq_nonneg dt]

theorem stateN_h_one (k mass dt h0 : ℚ) (hm : 0 < mass) :
    (stateN k mass dt h0 1).2.1 = h0 - (981/200) * dt ^ 2 := by
  have h0eq : stateN k mass dt h0 1 = stepState k mass dt (0, h0, 0) := by
    rw [stateN_succ, stateN_zero]
  rw [h0eq, stepState_h]
  have : calculate_acceleration (0, h0, (0:ℚ)).2.2 k mass (-981/100) = -981/100 := by
    rw [calc_acc_of_nonpos k mass (le_refl 0)]
    field_simp
    ring
  rw [this]
  simp only
  ring

/-- Linear height bound: after `n ≥ 1` steps in the stable regime the
height is at most `h0 - (n - 1) * g * dt ^ 2`. -/
theorem stateN_h_lin (k mass dt h0 : ℚ) (hk : 0 ≤ k) (hm : 0 < mass)
    (hdt : 0 < dt) (hS : 4 * k * (981/100) * dt ^ 2 ≤ mass) : ∀ n : ℕ, 1 ≤ n →
    (stateN k mass dt h0 n).2.1 ≤ h0 - ((n : ℚ) - 1) * ((981/100) * dt ^ 2) := by
  intro n
  induction n with
  | zero => intro h; exact absurd h (by norm_num)
  | succ m ih =>
    intro _
    by_cases hm1 : 1 ≤ m
    · have := stateN_h_decr k mass dt h0 hk hm hdt hS m hm1
      have := ih hm1
      push_cast
      push_cast at this ⊢
      linarith
    · have hm0 : m = 0 := by omega
      subst hm0
      rw [stateN_h_one k mass dt h0 hm]
      push_cast
      nlinarith [sq_nonneg dt]

/-- Every step of the stable-regime run strictly lowers the height. -/
theorem stateN_h_strict (k mass dt h0 : ℚ) (hk : 0 ≤ k) (hm : 0 < mass)
    (hdt : 0 < dt) (hS : 4 * k * (981/100) * dt ^ 2 ≤ mass) (n : ℕ) :
    (stateN k mass dt h0 (n + 1)).2.1 < (stateN k mass dt h0 n).2.1 := by
  by_cases hn : 1 ≤ n
  · have := stateN_h_decr k mass dt h0 hk hm hdt hS n hn
    nlinarith [sq_nonneg dt, mul_pos hdt hdt]
  · have hn0 : n = 0 := by omega
    subst hn0
    have h1 := stateN_h_one k mass dt h0 hm
    have h00 : (stateN k mass dt h0 0).2.1 = h0 := rfl
    rw [h1, h00]
    nlinarith [mul_pos hdt hdt]

/-- Termination in the stable regime: with fuel at least `h0 / (g dt²) + 2`
some iterate within the fuel has non-positive height. -/
theorem stateN_exit (k mass dt h0 : ℚ) (fuel : ℕ) (hh0 : 0 < h0) (hk : 0 ≤ k)
    (hm : 0 < mass) (hdt : 0 < dt) (hS : 4 * k * (981/100) * dt ^ 2 ≤ mass)
    (hfuel : h0 ≤ ((fuel : ℚ) - 2) * ((981/100) * dt ^ 2)) :
    ∃ n : ℕ, n < fuel ∧ (stateN k mass dt h0 n).2.1 ≤ 0 := by
  have hdt2 : 0 < (981/100) * dt ^ 2 := by positivity
  have hfuel3 : 3 ≤ fuel := by
    by_contra hlt
    push_neg at hlt
    interval_cases fuel <;> nlinarith
  refine ⟨fuel - 1, by omega, ?_⟩
  have h1 : 1 ≤ fuel - 1 := by omega
  have hbound := stateN_h_lin k mass dt h0 hk hm hdt hS (fuel - 1) h1
  have hcast : ((fuel - 1 : ℕ) : ℚ) = (fuel : ℚ) - 1 := by
    have : 1 ≤ fuel := by omega
    push_cast [Nat.cast_sub this]
    ring
  rw [hcast] at hbound
  nlinarith

/-- With `k = 0` the run is exact free fall: closed form for the state. -/
theorem stateN_free_fall (mass dt h0 : ℚ) (hm : mass ≠ 0) : ∀ n : ℕ,
    stateN 0 mass dt h0 n
      = ((n : ℚ) * dt, h0 - (981/200) * ((n : ℚ) * dt) ^ 2,
          -(981/100) * ((n : ℚ) * dt)) := by
  intro n
  induction n with
  | zero => simp [stateN_zero]
  | succ m ih =>
    rw [stateN_succ, ih]
    unfold stepState
    rw [calc_acc_k_zero mass (-981/100) hm]
    unfold update_state
    simp only [Prod.mk.injEq]
    refine ⟨by push_cast; ring, by push_cast; ring, by push_cast; ring⟩

theorem fallingLoop_succ (k mass dt : ℚ) (n : ℕ) (s : ℚ × ℚ × ℚ) :
    fallingLoop k mass dt (n + 1) s
      = if 0 < s.2.1 then
          ((s.1 :: (fallingLoop k mass dt n (stepState k mass dt s)).1,
            s.2.1 :: (fallingLoop k mass dt n (stepState k mass dt s)).2.1,
            s.2.2 :: (fallingLoop k mass dt n (stepState k mass dt s)).2.2))
        else ([], [], []) := rfl

theorem heights_eq (h0 k mass dt : ℚ) (fuel : ℕ) :
    (falling_mass h0 k mass dt fuel).2.1
      = (fallingSamples k mass dt fuel (0, h0, 0)).map (fun x => x.2.1) := by
  unfold falling_mass
  rw [fallingLoop_eq_samples]

theorem times_eq (h0 k mass dt : ℚ) (fuel : ℕ) :
    (falling_mass h0 k mass dt fuel).1
      = (fallingSamples k mass dt fuel (0, h0, 0)).map Prod.fst := by
  unfold falling_mass
  rw [fallingLoop_eq_samples]

theorem vels_eq (h0 k mass dt : ℚ) (fuel : ℕ) :
    (falling_mass h0 k mass dt fuel).2.2
      = (fallingSamples k mass dt fuel (0, h0, 0)).map (fun x => x.2.2) := by
  unfold falling_mass
  rw [fallingLoop_eq_samples]

theorem samples_stateN (k mass dt h0 : ℚ) (fuel : ℕ) (i : ℕ)
    (hi : i < (fallingSamples k mass dt fuel (0, h0, 0)).length) :
    (fallingSamples k mass dt fuel (0, h0, 0))[i] = stateN k mass dt h0 i :=
  samples_getElem k mass dt fuel (0, h0, 0) i hi

theorem heights_getElem (h0 k mass dt : ℚ) (fuel : ℕ) (i : ℕ)
    (hi : i < (falling_mass h0 k mass dt fuel).2.1.length) :
    (falling_mass h0 k mass dt fuel).2.1[i] = (stateN k mass dt h0 i).2.1 := by
  have hlen : i < (fallingSamples k mass dt fuel (0, h0, 0)).length := by
    have := heights_eq h0 k mass dt fuel
    rw [this, List.length_map] at hi
    exact hi
  rw [List.getElem_of_eq (heights_eq h0 k mass dt fuel) hi, List.getElem_map,
    samples_stateN k mass dt h0 fuel i hlen]

theorem times_getElem (h0 k mass dt : ℚ) (fuel : ℕ) (i : ℕ)
    (hi : i < (falling_mass h0 k mass dt fuel).1.length) :
    (falling_mass h0 k mass dt fuel).1[i] = (i : ℚ) * dt := by
  have hlen : i < (fallingSamples k mass dt fuel (0, h0, 0)).length := by
    have := times_eq h0 k mass dt fuel
    rw [this, List.length_map] at hi
    exact hi
  rw [List.getElem_of_eq (times_eq h0 k mass dt fuel) hi, List.getElem_map,
    samples_stateN k mass dt h0 fuel i hlen, stateN_time]

theorem vels_getElem (h0 k mass dt : ℚ) (fuel : ℕ) (i : ℕ)
    (hi : i < (falling_mass h0 k mass dt fuel).2.2.length) :
    (falling_mass h0 k mass dt fuel).2.2[i] = (stateN k mass dt h0 i).2.2 := by
  have hlen : i < (fallingSamples k mass dt fuel (0, h0, 0)).length := by
    have := vels_eq h0 k mass dt fuel
    rw [this, List.length_map] at hi
    exact hi
  rw [List.getElem_of_eq (vels_eq h0 k mass dt fuel) hi, List.getElem_map,
    samples_stateN k mass dt h0 fuel i hlen]

/-- In a list whose consecutive entries strictly decrease, every entry
bounds each later entry from above. -/
theorem list_decr_getElem_le (L : List ℚ)
    (hdec : ∀ i : ℕ, (hi : i + 1 < L.length) → L[i + 1] < L[i]) (i : ℕ) :
    ∀ j : ℕ, (hij : i ≤ j) → (hj : j < L.length) → L[j] ≤ L[i] := by
  intro j
  induction j with
  | zero =>
    intro hij hj
    have : i = 0 := Nat.le_zero.mp hij
    subst this
    exact le_refl _
  | succ m ih =>
    intro hij hj
    rcases Nat.lt_or_ge i (m + 1) with hlt | hge
    · have him : i ≤ m := by omega
      have hm : m < L.length := by omega
      exact le_trans (le_of_lt (hdec m hj)) (ih him hm)
    · have : i = m + 1 := by omega
      subst this
      exact le_refl _

theorem getLastD_eq_getElem (L : List ℚ) (hne : L ≠ [])
    (hlast : L.length - 1 < L.length) : L.getLastD 0 = L[L.length - 1] := by
  rw [List.getLastD_eq_getLast?, List.getLast?_eq_getElem?,
    List.getElem?_eq_getElem hlast]
  rfl

theorem list_decr_getLastD_le (L : List ℚ) (hne : L ≠ [])
    (hdec : ∀ i : ℕ, (hi : i + 1 < L.length) → L[i + 1] < L[i]) :
    ∀ x ∈ L, L.getLastD 0 ≤ x := by
  intro x hx
  obtain ⟨i, hi, hix⟩ := List.mem_iff_getElem.mp hx
  have hlen : 0 < L.length := List.length_pos.mpr hne
  have hlast : L.length - 1 < L.length := by omega
  rw [getLastD_eq_getElem L hne hlast, ← hix]
  exact list_decr_getElem_le L hdec i (L.length - 1) (by omega) hlast

/-- The fuel hypothesis of the stable-regime run forces at least 3 units
of fuel when the object starts above ground. -/
theorem fuel_ge_three (h0 dt : ℚ) (fuel : ℕ) (hh0 : 0 < h0) (hdt : 0 < dt)
    (hfuel : h0 ≤ ((fuel : ℚ) - 2) * ((981/100) * dt ^ 2)) : 3 ≤ fuel := by
  have hdt2 : 0 < (981/100) * dt ^ 2 := by positivity
  by_contra hlt
  push_neg at hlt
  interval_cases fuel <;> nlinarith

/-- Claim C2: for every velocity `v`, drag coefficient `k`, gravity and
nonzero mass, `calculate_acceleration v k mass gravity` is exactly
`(mass * gravity - sign v * k * v ^ 2) / mass`, where `sign v` is `-1`,
`0` or `1` according to the sign of `v`; for the spec's domain `0 ≤ k`
the drag term `-sign v * k * v ^ 2` opposes the current velocity. -/
theorem claimC2 (v k mass gravity : ℚ) (hm : mass ≠ 0) :
    calculate_acceleration v k mass gravity
      = (mass * gravity - sign v * k * v ^ 2) / mass
    ∧ (0 < v → sign v = 1) ∧ (v = 0 → sign v = 0) ∧ (v < 0 → sign v = -1)
    ∧ (0 ≤ k →
        (0 < v → -sign v * k * v ^ 2 ≤ 0) ∧ (v < 0 → 0 ≤ -sign v * k * v ^ 2)) := by
  refine ⟨by unfold calculate_acceleration; ring, fun h => sign_of_pos h,
    fun h => by simp [h, sign_of_zero], fun h => sign_of_neg h, fun hk => ⟨?_, ?_⟩⟩
  · intro hv
    rw [sign_of_pos hv]
    have : 0 ≤ k * v ^ 2 := mul_nonneg hk (sq_nonneg v)
    nlinarith
  · intro hv
    rw [sign_of_neg hv]
    have : 0 ≤ k * v ^ 2 := mul_nonneg hk (sq_nonneg v)
    nlinarith

/-- Witness for C2 at `v = -3`, `k = 2`, `mass = 5`, `gravity = -981/100`. -/
theorem claimC2_witness :
    (5 : ℚ) ≠ 0 ∧
    (calculate_acceleration (-3) 2 5 (-981/100)
        = ((5 : ℚ) * (-981/100) - sign (-3) * 2 * (-3) ^ 2) / 5
      ∧ ((0 : ℚ) < -3 → sign (-3) = 1) ∧ ((-3 : ℚ) = 0 → sign (-3) = 0)
      ∧ ((-3 : ℚ) < 0 → sign (-3) = -1)
      ∧ ((0 : ℚ) ≤ 2 →
          ((0 : ℚ) < -3 → -sign (-3) * 2 * (-3) ^ 2 ≤ 0)
          ∧ ((-3 : ℚ) < 0 → 0 ≤ -sign (-3) * 2 * (-3) ^ 2))) :=
  ⟨by norm_num, claimC2 (-3) 2 5 (-981/100) (by norm_num)⟩

/-- Claim C3: `update_state t x v a dt` returns exactly
`(t + dt, x + v * dt + (1/2) * a * dt ^ 2, v + a * dt)`; the displacement
uses the velocity from before the velocity update. -/
theorem claimC3 (t x v a dt : ℚ) :
    update_state t x v a dt
      = (t + dt, x + (v * dt + (1/2) * a * dt ^ 2), v + a * dt) := rfl

/-- Claim C10: for a starting height `≤ 0`, the loop body never runs and
`falling_mass` returns three empty lists, whatever the other parameters. -/
theorem claimC10 (initial_height k mass dt : ℚ) (h : initial_height ≤ 0)
    (fuel : ℕ) :
    falling_mass initial_height k mass dt fuel = ([], [], []) := by
  cases fuel with
  | zero => rfl
  | succ n =>
    unfold falling_mass fallingLoop
    simp [not_lt.mpr h]

/-- Witness for C10 at `initial_height = -5`, `k = 1`, `mass = 2`,
`dt = 3`, `fuel = 4`. -/
theorem claimC10_witness :
    (-5 : ℚ) ≤ 0 ∧ falling_mass (-5) 1 2 3 4 = ([], [], []) :=
  ⟨by norm_num, claimC10 (-5) 1 2 3 (by norm_num) 4⟩

/-- Claim C4: for every call of `falling_mass` the three returned lists
have equal length, the time list satisfies `time[i] = i * dt`, and for
`dt > 0` consecutive time entries strictly increase, spaced by `dt`. -/
theorem claimC4 (h0 k mass dt : ℚ) (fuel : ℕ) :
    ((falling_mass h0 k mass dt fuel).1.length
        = (falling_mass h0 k mass dt fuel).2.1.length
      ∧ (falling_mass h0 k mass dt fuel).2.1.length
        = (falling_mass h0 k mass dt fuel).2.2.length)
    ∧ (∀ i : ℕ, (hi : i < (falling_mass h0 k mass dt fuel).1.length) →
        (falling_mass h0 k mass dt fuel).1[i] = (i : ℚ) * dt)
    ∧ (0 < dt →
        ∀ i : ℕ, (hi : i + 1 < (falling_mass h0 k mass dt fuel).1.length) →
          (falling_mass h0 k mass dt fuel).1[i]
            < (falling_mass h0 k mass dt fuel).1[i + 1]) := by
  refine ⟨⟨?_, ?_⟩, ?_, ?_⟩
  · rw [times_eq, heights_eq]
    simp
  · rw [heights_eq, vels_eq]
    simp
  · intro i hi
    exact times_getElem h0 k mass dt fuel i hi
  · intro hdt i hi
    rw [times_getElem h0 k mass dt fuel i (by omega),
      times_getElem h0 k mass dt fuel (i + 1) hi]
    have hstepdt : ((i : ℚ) + 1) * dt = (i : ℚ) * dt + dt := by ring
    push_cast
    linarith

/-- Witness for C4 at `h0 = 1`, `k = 0`, `mass = 1`, `dt = 2`, `fuel = 3`,
with the positivity of `dt` discharged concretely. -/
theorem claimC4_witness :
    ((falling_mass 1 0 1 2 3).1.length = (falling_mass 1 0 1 2 3).2.1.length
      ∧ (falling_mass 1 0 1 2 3).2.1.length = (falling_mass 1 0 1 2 3).2.2.length)
    ∧ (∀ i : ℕ, (hi : i < (falling_mass 1 0 1 2 3).1.length) →
        (falling_mass 1 0 1 2 3).1[i] = (i : ℚ) * 2)
    ∧ (∀ i : ℕ, (hi : i + 1 < (falling_mass 1 0 1 2 3).1.length) →
        (falling_mass 1 0 1 2 3).1[i] < (falling_mass 1 0 1 2 3).1[i + 1]) :=
  ⟨(claimC4 1 0 1 2 3).1, (claimC4 1 0 1 2 3).2.1,
    (claimC4 1 0 1 2 3).2.2 (by norm_num)⟩

/-- Claim C6: for a positive starting height (and at least one unit of
fuel) the three returned lists are non-empty and start with the initial
state `t = 0`, `h = initial_height`, `v = 0`. -/
theorem claimC6 (h0 k mass dt : ℚ) (fuel : ℕ) (hh0 : 0 < h0)
    (hfuel : 1 ≤ fuel) :
    (falling_mass h0 k mass dt fuel).1 ≠ []
    ∧ (falling_mass h0 k mass dt fuel).2.1 ≠ []
    ∧ (falling_mass h0 k mass dt fuel).2.2 ≠ []
    ∧ (falling_mass h0 k mass dt fuel).1.headI = 0
    ∧ (falling_mass h0 k mass dt fuel).2.1.headI = h0
    ∧ (falling_mass h0 k mass dt fuel).2.2.headI = 0 := by
  have hc := samples_cons k mass dt fuel (0, h0, 0) hh0 hfuel
  rw [times_eq, heights_eq, vels_eq, hc]
  simp

/-- Witness for C6 at `h0 = 1`, `k = 0`, `mass = 1`, `dt = 1`, `fuel = 1`. -/
theorem claimC6_witness :
    (0 : ℚ) < 1 ∧ 1 ≤ 1
    ∧ ((falling_mass 1 0 1 1 1).1 ≠ []
      ∧ (falling_mass 1 0 1 1 1).2.1 ≠ []
      ∧ (falling_mass 1 0 1 1 1).2.2 ≠ []
      ∧ (falling_mass 1 0 1 1 1).1.headI = 0
      ∧ (falling_mass 1 0 1 1 1).2.1.headI = 1
      ∧ (falling_mass 1 0 1 1 1).2.2.headI = 0) :=
  ⟨by norm_num, by norm_num, claimC6 1 0 1 1 1 (by norm_num) (by norm_num)⟩

/-- Claim C7: with `k = 0` the recorded heights agree exactly with the
closed-form free-fall solution `h0 - 0.5 * 9.81 * (i * dt) ^ 2`; the
kinematic half-`a dt²` update is exact for constant acceleration. -/
theorem claimC7 (h0 mass dt : ℚ) (fuel : ℕ) (hh0 : 0 < h0) (hm : 0 < mass)
    (hdt : 0 < dt) :
    ∀ i : ℕ, (hi : i < (falling_mass h0 0 mass dt fuel).2.1.length) →
      (falling_mass h0 0 mass dt fuel).2.1[i]
        = h0 - (981/200) * ((i : ℚ) * dt) ^ 2 := by
  intro i hi
  rw [heights_getElem h0 0 mass dt fuel i hi,
    stateN_free_fall mass dt h0 (ne_of_gt hm) i]

/-- Witness for C7 at `h0 = 1`, `mass = 1`, `dt = 1`, `fuel = 1`. -/
theorem claimC7_witness :
    (0 : ℚ) < 1
    ∧ (∀ i : ℕ, (hi : i < (falling_mass 1 0 1 1 1).2.1.length) →
        (falling_mass 1 0 1 1 1).2.1[i] = 1 - (981/200) * ((i : ℚ) * 1) ^ 2) :=
  ⟨by norm_num, claimC7 1 1 1 1 (by norm_num) (by norm_num) (by norm_num)⟩

/-- Claim C8: with `k = 0`, a positive starting height and `dt > 0`, the
recorded velocities strictly decrease from each entry to the next. -/
theorem claimC8 (h0 mass dt : ℚ) (fuel : ℕ) (hh0 : 0 < h0) (hm : 0 < mass)
    (hdt : 0 < dt) :
    ∀ i : ℕ, (hi : i + 1 < (falling_mass h0 0 mass dt fuel).2.2.length) →
      (falling_mass h0 0 mass dt fuel).2.2[i + 1]
        < (falling_mass h0 0 mass dt fuel).2.2[i] := by
  intro i hi
  rw [vels_getElem h0 0 mass dt fuel (i + 1) hi,
    vels_getElem h0 0 mass dt fuel i (by omega),
    stateN_free_fall mass dt h0 (ne_of_gt hm) (i + 1),
    stateN_free_fall mass dt h0 (ne_of_gt hm) i]
  simp only
  push_cast
  nlinarith

/-- Witness for C8 at `h0 = 1`, `mass = 1`, `dt = 1`, `fuel = 2`. -/
theorem claimC8_witness :
    (0 : ℚ) < 1
    ∧ (∀ i : ℕ, (hi : i + 1 < (falling_mass 1 0 1 1 2).2.2.length) →
        (falling_mass 1 0 1 1 2).2.2[i + 1] < (falling_mass 1 0 1 1 2).2.2[i]) :=
  ⟨by norm_num, claimC8 1 1 1 2 (by norm_num) (by norm_num) (by norm_num)⟩

/-- Claim C1: each loop iteration records the current `(t, h, v)` sample
and only then advances the state; every recorded height is strictly
positive; under the stable-regime and sufficient-fuel hypotheses the run
completes, the heights start at `initial_height`, the last recorded height
is the smallest recorded one (still positive), and the state one step
after the last recorded sample has height `≤ 0` (no interpolation). -/
theorem claimC1 (h0 k mass dt : ℚ) (fuel : ℕ) (hh0 : 0 < h0)
    (hexit : ∃ n : ℕ, n < fuel ∧ (stateN k mass dt h0 n).2.1 ≤ 0) :
    (∀ (s : ℚ × ℚ × ℚ) (n : ℕ), 0 < s.2.1 →
        fallingLoop k mass dt (n + 1) s
          = (s.1 :: (fallingLoop k mass dt n (stepState k mass dt s)).1,
             s.2.1 :: (fallingLoop k mass dt n (stepState k mass dt s)).2.1,
             s.2.2 :: (fallingLoop k mass dt n (stepState k mass dt s)).2.2))
    ∧ (∀ x ∈ (falling_mass h0 k mass dt fuel).2.1, 0 < x)
    ∧ (falling_mass h0 k mass dt fuel).2.1 ≠ []
    ∧ (falling_mass h0 k mass dt fuel).2.1.headI = h0
    ∧ 0 < (falling_mass h0 k mass dt fuel).2.1.getLastD 0
    ∧ (0 ≤ k → 0 < mass → 0 < dt → 4 * k * (981/100) * dt ^ 2 ≤ mass →
        ∀ x ∈ (falling_mass h0 k mass dt fuel).2.1,
          (falling_mass h0 k mass dt fuel).2.1.getLastD 0 ≤ x)
    ∧ (stateN k mass dt h0 (falling_mass h0 k mass dt fuel).2.1.length).2.1 ≤ 0 := by
  obtain ⟨n, hn, hexn⟩ := hexit
  have hfuel1 : 1 ≤ fuel := by omega
  have hH := heights_eq h0 k mass dt fuel
  have hlen : (falling_mass h0 k mass dt fuel).2.1.length
      = (fallingSamples k mass dt fuel (0, h0, 0)).length := by
    rw [hH, List.length_map]
  have hc := samples_cons k mass dt fuel (0, h0, 0) hh0 hfuel1
  have hne : (falling_mass h0 k mass dt fuel).2.1 ≠ [] := by
    rw [hH, hc]
    simp
  have hpos : ∀ x ∈ (falling_mass h0 k mass dt fuel).2.1, 0 < x := by
    intro x hx
    rw [hH] at hx
    obtain ⟨y, hy, rfl⟩ := List.mem_map.mp hx
    exact samples_mem_pos k mass dt fuel (0, h0, 0) y hy
  have hstop : (fallingSamples k mass dt fuel (0, h0, 0)).length < fuel :=
    samples_length_lt k mass dt fuel (0, h0, 0) n hn hexn
  refine ⟨fun s n hs => by rw [fallingLoop_succ, if_pos hs], hpos, hne, ?_, ?_, ?_, ?_⟩
  · rw [hH, hc]
    simp
  · have hlast : (falling_mass h0 k mass dt fuel).2.1.length - 1
        < (falling_mass h0 k mass dt fuel).2.1.length := by
      have : 0 < (falling_mass h0 k mass dt fuel).2.1.length :=
        List.length_pos.mpr hne
      omega
    rw [getLastD_eq_getElem (falling_mass h0 k mass dt fuel).2.1 hne hlast,
      heights_getElem h0 k mass dt fuel _ hlast]
    exact samples_iterate_pos k mass dt fuel (0, h0, 0) _ (by omega)
  · intro hk hm hdt hS
    have hdec : ∀ i : ℕ,
        (hi : i + 1 < (falling_mass h0 k mass dt fuel).2.1.length) →
        (falling_mass h0 k mass dt fuel).2.1[i + 1]
          < (falling_mass h0 k mass dt fuel).2.1[i] := by
      intro i hi
      rw [heights_getElem h0 k mass dt fuel (i + 1) hi,
        heights_getElem h0 k mass dt fuel i (by omega)]
      exact stateN_h_strict k mass dt h0 hk hm hdt hS i
    exact list_decr_getLastD_le (falling_mass h0 k mass dt fuel).2.1 hne hdec
  · have hexit := samples_exit k mass dt fuel (0, h0, 0) hstop
    rw [hlen]
    exact hexit

/-- Witness for C1: the notebook call `falling_mass(20, k=0.035)`, i.e.
`h0 = 20`, `k = 7/200`, `mass = 1`, `dt = 1/10`, with `fuel = 206`. -/
theorem claimC1_witness :
    (0 : ℚ) < 20
    ∧ ((∀ x ∈ (falling_mass 20 (7/200) 1 (1/10) 206).2.1, 0 < x)
      ∧ (falling_mass 20 (7/200) 1 (1/10) 206).2.1 ≠ []
      ∧ (falling_mass 20 (7/200) 1 (1/10) 206).2.1.headI = 20
      ∧ 0 < (falling_mass 20 (7/200) 1 (1/10) 206).2.1.getLastD 0
      ∧ (∀ x ∈ (falling_mass 20 (7/200) 1 (1/10) 206).2.1,
          (falling_mass 20 (7/200) 1 (1/10) 206).2.1.getLastD 0 ≤ x)
      ∧ (stateN (7/200) 1 (1/10) 20
          (falling_mass 20 (7/200) 1 (1/10) 206).2.1.length).2.1 ≤ 0) := by
  have h := claimC1 20 (7/200) 1 (1/10) 206 (by norm_num)
    (stateN_exit (7/200) 1 (1/10) 20 206 (by norm_num) (by norm_num)
      (by norm_num) (by norm_num) (by norm_num) (by norm_num))
  exact ⟨by norm_num, h.2.1, h.2.2.1, h.2.2.2.1, h.2.2.2.2.1,
    h.2.2.2.2.2.1 (by norm_num) (by norm_num) (by norm_num) (by norm_num),
    h.2.2.2.2.2.2⟩

end Test3
